import Mathlib

/-!
# Verification of the cyclicKey package

Shallow embedding of the Go package `cyclicKey` (files `cyclicKey.go`,
historical variant included after the separator in the same file) and proofs
about its specification claims.

Machine integers are modelled as `Nat` with explicit `% 2^32` (written
`% 4294967296`) at the operations where a Go `uint32` can actually wrap, and
explicit `% 256` where a Go `byte` conversion truncates.  Where an operation
provably cannot exceed `2^32` for every reachable operand (for example
`pm * b` with both factors below `257` in `powMod`), the wrap is omitted; each
such omission is noted in a comment.
-/

/-! ## powMod (cyclicKey.go lines 49-58)

`powMod` is square-and-multiply modulo the prime `p = 257`.  The Go loop
`for e > 0 { if e&1 { pm = pm*b%p }; e >>= 1; b = b*b%p }` becomes a
well-founded recursion on `e`.  All multiplications involve operands `< 2^16`
for every call the package makes (`pm < 257` always, and `b < 257` for the
table-building calls), so the `uint32` wrap can never fire and is omitted. -/

def powModLoop : Nat → Nat → Nat → Nat → Nat
  | 0, pm, _, _ => pm
  | f + 1, pm, b, e =>
    if e = 0 then pm
    else powModLoop f (if e % 2 = 1 then pm * b % 257 else pm) (b * b % 257) (e / 2)

/-- The loop halves `e` each pass, so it runs at most the bit length of `e`
times; the fuel `e + 1` always exceeds that, making the fuelled recursion
exactly the Go `for e > 0` loop. -/
def powMod (b e : Nat) : Nat := powModLoop (e + 1) 1 b e

/-! ## The power-modulus table (cyclicKey.go lines 32-44)

`loadTbl` fills `pmTbl` row by row: row 0 (odd root index `ri = 1`) is
filled first using the bootstrap write `pmTbl[1] = 2` (so its root is
`pmTbl[1]+1 = 3`), and every later odd `ri` reads its root from
`pmTbl[ri]+1`, an entry of row 0 already set to `powMod(3,ri) - 1`.
Hence row `k` (for odd index `ri = 2k+1`) holds `powMod(3^(2k+1), e) - 1`
at column `e`.  We embed the finished table by that closed form; the
bootstrap overwrite of `pmTbl[1]` during row 0's fill rewrites the same
value `2`. -/

def rootOfRow (k : Nat) : Nat := powMod 3 (2 * k + 1)

def pmTbl (i : Nat) : Nat := powMod (rootOfRow (i / 257)) (i % 257) - 1

/-! ## The inverse table (cyclicKey.go lines 69-88)

`pInv` runs the extended Euclidean algorithm on `int64` values.  The Go
loop assignments `q = a/b; b, a = a%b, b; x0, x1 = x1-q*x0, x0` appear
verbatim in the recursive call.  The loop runs at most a handful of times
for inputs below `257`; the fuel of 600 is never exhausted. -/

def pInvLoop : Nat → Int → Int → Int → Int → Int
  | 0, _, _, _, x1 => x1
  | fuel + 1, a, b, x0, x1 =>
    if 1 < a then pInvLoop fuel b (a % b) (x1 - (a / b) * x0) x0
    else x1

def pInvCalc (ua : Nat) : Nat :=
  let x1 := pInvLoop 600 (ua : Int) 257 0 1
  (if x1 < 0 then x1 + 257 else x1).toNat

/-- The table after the loop `for i := 1; i < p; i++ { pInv(i) }`.
Each `pInv(ua)` call either skips (entry already set) or writes both
`invTbl[ua-1] = x1-1` and `invTbl[x1-1] = ua-1` where `x1 = pInvCalc ua`;
the stored value is in `[0,255]` so the Go `byte` conversion never wraps.
Because `pInvCalc` is an involution on `[1,256]` (proved below as part of
the inverse-table claim), the mirror write at index `x1-1` stores exactly
`pInvCalc x1 - 1` and the memo-skip re-derives the value already present,
so the finished array holds `pInvCalc (i+1) - 1` at every index `i < 256`;
index 256 is never written and stays 0. -/
def invAt (i : Nat) : Nat := if i < 256 then pInvCalc (i + 1) - 1 else 0

/-! ## xorShift (cyclicKey.go lines 61-65) and its seeds -/

structure XS where
  x1 : Nat
  x2 : Nat
  x3 : Nat
  x4 : Nat
deriving DecidableEq

/-- `seed1 .. seed4` (cyclicKey.go lines 93-96). -/
def seeds : XS := ⟨2339296992, 2884812447, 2692626613, 3191761099⟩

/-- `xorShift`: the left shift wraps in `uint32`; xor and right shift of
values below `2^32` stay below `2^32`. -/
def xorShift (s : XS) : XS :=
  ⟨s.x2, s.x3, s.x4,
   s.x4 ^^^ (s.x4 >>> 19) ^^^ ((s.x1 ^^^ (s.x1 <<< 11)) % 4294967296)
     ^^^ (((s.x1 ^^^ (s.x1 <<< 11)) % 4294967296) >>> 8)⟩

/-! ## Cipher (cyclicKey.go lines 119-180)

Per-call state.  The Go code stores `k32[i] = ((key[i]+1) * ((xs4&255)+1)) % s`;
every write of `k32[i]` has that shape with the same `key[i]`, so we keep the
drawn factor `(xs4&255)+1` in `facs` and recompute `k32` at its use sites via
`k32Of` — the stored and the recomputed array agree at every step.  The rest
of the state (`xs`, the primitive-root queue `root`, the root index `ri`) is
exactly the Go state. -/

structure Sched where
  xs : XS
  facs : List Nat
  root : List Nat
  ri : Nat

/-- Draw `n` successive rotation factors `(xs4 & 255) + 1`, advancing the
xorShift state before each draw, as in the setup and rotation loops. -/
def drawFacs : Nat → XS → List Nat × XS
  | 0, xs => ([], xs)
  | n + 1, xs =>
    (((xorShift xs).x4 % 256 + 1) :: (drawFacs n (xorShift xs)).1,
     (drawFacs n (xorShift xs)).2)

/-- `k32[i] = ((key[i]+1) * f) % s` with `s = 256`. -/
def k32Of (key facs : List Nat) : List Nat :=
  List.zipWith (fun kb f => (kb + 1) * f % 256) key facs

/-- Setup loop: `root[i] = pmTbl[2i+1]+1` for `i = 0..kl`, factors drawn from
the seeded xorShift; afterwards `ri = 2*kl+3`. -/
def setupSched (kl : Nat) : Sched :=
  { xs := (drawFacs kl seeds).2
    facs := (drawFacs kl seeds).1
    root := (List.range (kl + 1)).map (fun i => pmTbl (2 * i + 1) + 1)
    ri := 2 * kl + 3 }

/-- End-of-iteration update: shift the root queue, push `pmTbl[ri]+1`,
advance `ri` by 2; on `ri > p-2` reset `ri` to 1 and redraw the factors of
the first `kl-1` key bytes (the rotation loop `for j = 0; j < kl-1; j++`). -/
def schedStep (s : Sched) : Sched :=
  if s.ri + 2 > 255 then
    { xs := (drawFacs (s.facs.length - 1) s.xs).2
      facs := (drawFacs (s.facs.length - 1) s.xs).1 ++ s.facs.drop (s.facs.length - 1)
      root := s.root.tail ++ [pmTbl s.ri + 1]
      ri := 1 }
  else
    { s with root := s.root.tail ++ [pmTbl s.ri + 1], ri := s.ri + 2 }

def schedAt (kl i : Nat) : Sched := Nat.iterate schedStep i (setupSched kl)

/-- Inner-loop table lookup `pmTbl[((root[j]-1)/2)*257 + k32[j]] + 1`. -/
def tblEntry (rt e : Nat) : Nat := pmTbl ((rt - 1) / 2 * 257 + e) + 1

/-- One multiplication of the inner loop: `kp *= entry` wraps in `uint32`
(`% 4294967296`), and after every third multiplication `kp` is reduced
mod `257` (`doMod`). -/
def kpStep (a : Nat × Nat) (rk : Nat × Nat) : Nat × Nat :=
  if a.2 + 1 = 3 then (a.1 * tblEntry rk.1 rk.2 % 4294967296 % 257, 0)
  else (a.1 * tblEntry rk.1 rk.2 % 4294967296, a.2 + 1)

/-- The inner loop over the key bytes plus the trailing
`if doMod != 0 { kp = kp % p }`. -/
def kpRaw (ps : List (Nat × Nat)) : Nat :=
  if (ps.foldl kpStep (1, 0)).2 = 0 then (ps.foldl kpStep (1, 0)).1
  else (ps.foldl kpStep (1, 0)).1 % 257

/-- The same loop with `kp` reduced mod `257` after every single
multiplication (the reference the lazy reduction must match). -/
def kpExact (ps : List (Nat × Nat)) : Nat :=
  ps.foldl (fun a rk => a * tblEntry rk.1 rk.2 % 257) 1

/-- The root/exponent pairs consumed by the inner loop at outer iteration
`i` for a given key. -/
def kpPairs (key : List Nat) (i : Nat) : List (Nat × Nat) :=
  (schedAt key.length i).root.zip (k32Of key (schedAt key.length i).facs)

/-- The key product of outer iteration `i` as the Go code computes it. -/
def kpAt (key : List Nat) (i : Nat) : Nat := kpRaw (kpPairs key i)

/-- The key product of outer iteration `i` under eager reduction. -/
def kpExactAt (key : List Nat) (i : Nat) : Nat := kpExact (kpPairs key i)

/-- The `pmTbl` indices the inner loop reads at outer iteration `i`. -/
def pmIndices (key : List Nat) (i : Nat) : List Nat :=
  (kpPairs key i).map (fun rk => (rk.1 - 1) / 2 * 257 + rk.2)

/-- `invTbl[kp-1] + 1`. -/
def invVal (x : Nat) : Nat := invAt (x - 1) + 1

/-- Output byte `byte(((input[i]+1)*kp) % p - 1)`: the `uint32` subtraction
followed by the `byte` conversion equals `(x + 255) % 256` for `x < 2^32`. -/
def outByte (b kp : Nat) : Nat := ((b + 1) * kp % 257 + 255) % 256

/-- The outer loop.  Both branches of the `invert` decision read
`invTbl[kp-1]`; when `kp = 0` that index underflows to `2^32 - 1` and the
Go program panics, modelled as `none`. -/
def cipherGo (key : List Nat) (invert : Bool) : List Nat → Sched → Option (List Nat)
  | [], _ => some []
  | b :: rest, s =>
    if kpRaw (s.root.zip (k32Of key s.facs)) = 0 then none
    else
      (cipherGo key invert rest (schedStep s)).map
        (fun out =>
          outByte b (if invert then invAt (kpRaw (s.root.zip (k32Of key s.facs)) - 1) + 1
                     else kpRaw (s.root.zip (k32Of key s.facs))) :: out)

/-- `Cipher(input, key, invert)` (cyclicKey.go lines 119-180). -/
def Cipher (input key : List Nat) (invert : Bool) : Option (List Nat) :=
  cipherGo key invert input (setupSched key.length)

/-- `Cipher` instrumented with a count of `invTbl` reads: both branches of
the `invert` decision (lines 158-166) perform exactly one lookup, the
non-inverting branch discarding its result into the dead `doMod` variable. -/
def cipherInstrGo (key : List Nat) (invert : Bool) :
    List Nat → Sched → Nat → Option (List Nat) × Nat
  | [], _, cnt => (some [], cnt)
  | b :: rest, s, cnt =>
    if kpRaw (s.root.zip (k32Of key s.facs)) = 0 then (none, cnt)
    else
      ((cipherInstrGo key invert rest (schedStep s)
          (if invert then cnt + 1 else cnt + 1)).1.map
        (fun out =>
          outByte b (if invert then invAt (kpRaw (s.root.zip (k32Of key s.facs)) - 1) + 1
                     else kpRaw (s.root.zip (k32Of key s.facs))) :: out),
       (cipherInstrGo key invert rest (schedStep s)
          (if invert then cnt + 1 else cnt + 1)).2)

def cipherInstr (input key : List Nat) (invert : Bool) : Option (List Nat) × Nat :=
  cipherInstrGo key invert input (setupSched key.length) 0

/-! ## GenerateKeyset (cyclicKey.go lines 187-207)

The secure random source is an oracle of byte draws: key `i`, byte `j` is
`rand (i*KeyLength + j)`. -/

/-- Package variable `KeyLength` (default 10). -/
def KeyLength : Nat := 10

def keyBytes (rand : Nat → Nat) (kLen i : Nat) : List Nat :=
  (List.range kLen).map (fun j => rand (i * kLen + j))

def randKeys (rand : Nat → Nat) (kLen n : Nat) : List (List Nat) :=
  (List.range n).map (keyBytes rand kLen)

/-- `compoundKey[j] += uint32(keyset[i][j]) + 1` accumulates in a `uint32`,
which wraps; the wrap is irrelevant mod 256. -/
def compoundAcc (ks : List (List Nat)) (j : Nat) : Nat :=
  ks.foldl (fun a k => (a + (k.getD j 0 + 1)) % 4294967296) 0

/-- `keyset[keys-1][j] = byte((compoundKey[j] % s) - 1)`: the `uint32`
subtraction then `byte` conversion equals `(x % 256 + 255) % 256`. -/
def compoundKeyOf (kLen : Nat) (ks : List (List Nat)) : List Nat :=
  (List.range kLen).map (fun j => (compoundAcc ks j % 256 + 255) % 256)

def GenerateKeyset (rand : Nat → Nat) (kLen keys : Nat) : List (List Nat) :=
  randKeys rand kLen (keys - 1) ++ [compoundKeyOf kLen (randKeys rand kLen (keys - 1))]

/-- Per-position sum of field-element values `(key[j] + 1)` over a key list. -/
def sumFieldAt (ks : List (List Nat)) (j : Nat) : Nat :=
  (ks.map (fun k => k.getD j 0 + 1)).sum

/-! ## GenerateKeyset with a fallible random source (lines 191-196)

`rand.Read` can fail per call (one call per key); a failure panics
immediately, modelled as `none`. -/

def drawKeys (src : Nat → Option (List Nat)) : Nat → Nat → Option (List (List Nat))
  | _, 0 => some []
  | s, m + 1 =>
    match src s with
    | none => none
    | some k => (drawKeys src (s + 1) m).map (fun r => k :: r)

def GenerateKeysetE (src : Nat → Option (List Nat)) (kLen keys : Nat) :
    Option (List (List Nat)) :=
  (drawKeys src 0 (keys - 1)).map (fun ks => ks ++ [compoundKeyOf kLen ks])

/-! ## The historical variant's key rotation (lines 319-330 of the
combined file)

State: per-byte working values `k32` and cycle counters `keyCycle`.  The
loop either multiplies the first not-yet-exhausted byte's working value by 3
and breaks, or resets an exhausted byte and carries on. -/

def rotB (key k32 kc : List Nat) : List Nat × List Nat :=
  match key, k32, kc with
  | kb :: ks, v :: vs, c :: cs =>
    if c < 255 then (v * 3 % 256 :: vs, c :: cs)
    else ((kb + 1) :: (rotB ks vs cs).1, 0 :: (rotB ks vs cs).2)
  | _, _, _ => ([], [])

/-- `t` rotation ticks of the historical variant. -/
def rotBIter (key : List Nat) (t : Nat) (s : List Nat × List Nat) : List Nat × List Nat :=
  Nat.iterate (fun st => rotB key st.1 st.2) t s

/-! ## Chains of Cipher applications -/

def applyChain : List (List Nat × Bool) → List Nat → Option (List Nat)
  | [], m => some m
  | kb :: rest, m => (Cipher m kb.1 kb.2).bind (applyChain rest)

/-! ## Concrete inputs used by counterexamples

`badKey` makes the lazily reduced accumulator reach exactly `2^32` at the
first output byte: after the first reduction group `kp = 256` and the next
three table values are all `256`, so `kp` wraps to `0` and the `invTbl`
index `kp - 1` underflows (a Go panic). -/

def badKey : List Nat := [174, 0, 0, 31, 127, 127, 0, 0, 0, 0]

def badRand : Nat → Nat := fun i => badKey.getD (i % 10) 0

/-! ## Specification-level views used by the proofs -/

/-- The multiplier a single `Cipher` call applies at position `i`
(under eager reduction; equal to the code's multiplier whenever the lazy
accumulator does not wrap). -/
def effKp (key : List Nat) (invert : Bool) (i : Nat) : Nat :=
  if invert then invVal (kpExactAt key i) else kpExactAt key i

/-- The output `Cipher` produces byte by byte, starting at outer
iteration `i`. -/
def cipherSpec (key : List Nat) (invert : Bool) : Nat → List Nat → List Nat
  | _, [] => []
  | i, b :: rest => outByte b (effKp key invert i) :: cipherSpec key invert (i + 1) rest

/-- Accumulated multiplier of a chain of `Cipher` calls at position `i`. -/
def multProd (ks : List (List Nat × Bool)) (i : Nat) : Nat :=
  (ks.map (fun kb => effKp kb.1 kb.2 i)).prod

/-- The key product as a plain product of table entries indexed by root
values, rotation factors and key field values (`x = key byte + 1`). -/
def facProd : List Nat → List Nat → List Nat → Nat
  | rt :: rts, f :: fs, x :: xs => tblEntry rt (x * f % 256) * facProd rts fs xs
  | _, _, _ => 1

/-- Pointwise sum of the field values (`byte + 1`) of a list of keys. -/
def sumK (kLen : Nat) : List (List Nat) → List Nat
  | [] => List.replicate kLen 0
  | k :: ks => List.zipWith (· + ·) (k.map (· + 1)) (sumK kLen ks)

/-! # Lemmas -/

/-! ## powMod and the tables -/

theorem powModLoop_spec : ∀ (f pm b e : Nat), e < 2 ^ f →
    powModLoop f pm b e = if e = 0 then pm else pm * b ^ e % 257 := by
  intro f
  induction f with
  | zero =>
    intro pm b e he
    interval_cases e
    simp [powModLoop]
  | succ f ih =>
    intro pm b e he
    by_cases h0 : e = 0
    · simp [powModLoop, h0]
    · have hdiv : e / 2 < 2 ^ f := by
        apply Nat.div_lt_of_lt_mul
        have hp : (2:Nat) ^ (f + 1) = 2 * 2 ^ f := by ring
        omega
      rw [powModLoop, if_neg h0, ih _ _ _ hdiv]
      by_cases h2 : e / 2 = 0
      · have he1 : e = 1 := by omega
        subst he1
        simp [pow_one]
      · rw [if_neg h2]
        have hsq : (b * b % 257) ^ (e / 2) % 257 = b ^ (e / 2 + e / 2) % 257 := by
          rw [← Nat.pow_mod, mul_pow, ← pow_add]
        rcases Nat.even_or_odd e with hev | hod
        · have hm : e % 2 = 0 := Nat.even_iff.mp hev
          have he2 : e / 2 + e / 2 = e := by omega
          rw [if_neg (by omega)]
          rw [Nat.mul_mod, hsq, ← Nat.mul_mod, he2, if_neg h0]
        · have hm : e % 2 = 1 := Nat.odd_iff.mp hod
          have he2 : e / 2 + e / 2 + 1 = e := by omega
          rw [if_pos hm]
          rw [Nat.mod_mul_mod, Nat.mul_mod, hsq, ← Nat.mul_mod, mul_assoc, ← pow_succ',
            he2, if_neg h0]

theorem powMod_eq (b e : Nat) : powMod b e = b ^ e % 257 := by
  rw [powMod, powModLoop_spec (e + 1) 1 b e]
  · by_cases h : e = 0
    · simp [h]
    · simp [h]
  · calc e < 2 ^ e := Nat.lt_two_pow e
    _ ≤ 2 ^ (e + 1) := Nat.pow_le_pow_right (by norm_num) (Nat.le_succ e)

theorem prime257 : Nat.Prime 257 := by norm_num

theorem powMod_lt (b e : Nat) : powMod b e < 257 := by
  rw [powMod_eq]
  exact Nat.mod_lt _ (by norm_num)

theorem powMod_ne_zero (b e : Nat) (hb : ¬ (257 ∣ b)) : powMod b e ≠ 0 := by
  rw [powMod_eq]
  intro h
  exact hb (prime257.dvd_of_dvd_pow (Nat.dvd_of_mod_eq_zero h))

theorem rootOfRow_not_dvd (k : Nat) : ¬ (257 ∣ rootOfRow k) := by
  intro h
  have h1 : rootOfRow k ≠ 0 := powMod_ne_zero 3 (2 * k + 1) (by norm_num)
  have h2 : rootOfRow k < 257 := powMod_lt 3 (2 * k + 1)
  have := Nat.le_of_dvd (Nat.pos_of_ne_zero h1) h
  omega

theorem rootOfRow_pow256 (k : Nat) : rootOfRow k ^ 256 % 257 = 1 := by
  have h3 : (3 : Nat) ^ 256 % 257 = 1 := by norm_num
  rw [rootOfRow, powMod_eq, ← Nat.pow_mod, ← pow_mul, mul_comm, pow_mul, Nat.pow_mod, h3]
  norm_num

theorem pow_mod_cycle (R a : Nat) (h : R ^ 256 % 257 = 1) :
    R ^ a ≡ R ^ (a % 256) [MOD 257] := by
  conv_lhs => rw [← Nat.div_add_mod a 256]
  rw [pow_add, pow_mul]
  have h1 : R ^ 256 ≡ 1 [MOD 257] := by
    unfold Nat.ModEq
    simpa using h
  calc (R ^ 256) ^ (a / 256) * R ^ (a % 256)
      ≡ 1 ^ (a / 256) * R ^ (a % 256) [MOD 257] := (h1.pow _).mul_right _
  _ = R ^ (a % 256) := by rw [one_pow, one_mul]

theorem pmTbl_le (i : Nat) : pmTbl i ≤ 255 := by
  have := powMod_lt (rootOfRow (i / 257)) (i % 257)
  unfold pmTbl
  omega

theorem tblEntry_eq (rt e : Nat) (he : e < 257) :
    tblEntry rt e = rootOfRow ((rt - 1) / 2) ^ e % 257 := by
  have hidx : (rt - 1) / 2 * 257 + e = e + 257 * ((rt - 1) / 2) := by ring
  have hne : powMod (rootOfRow ((rt - 1) / 2)) e ≠ 0 :=
    powMod_ne_zero _ _ (rootOfRow_not_dvd _)
  unfold tblEntry pmTbl
  rw [hidx, Nat.add_mul_div_left e _ (by norm_num : (0:Nat) < 257),
    Nat.add_mul_mod_self_left, Nat.div_eq_of_lt he, Nat.mod_eq_of_lt he, Nat.zero_add]
  rw [← powMod_eq]
  omega

theorem tblEntry_pos (rt e : Nat) : 1 ≤ tblEntry rt e := by
  unfold tblEntry
  omega

theorem tblEntry_le (rt e : Nat) : tblEntry rt e ≤ 256 := by
  have := pmTbl_le ((rt - 1) / 2 * 257 + e)
  unfold tblEntry
  omega

theorem tblEntry_not_dvd (rt e : Nat) (he : e < 257) : ¬ (257 ∣ tblEntry rt e) := by
  rw [tblEntry_eq rt e he]
  intro h
  have hz : rootOfRow ((rt - 1) / 2) ^ e % 257 = 0 := by
    have hlt : rootOfRow ((rt - 1) / 2) ^ e % 257 < 257 := Nat.mod_lt _ (by norm_num)
    exact Nat.eq_zero_of_dvd_of_lt h hlt
  exact powMod_ne_zero (rootOfRow ((rt - 1) / 2)) e (rootOfRow_not_dvd _) (by
    rw [powMod_eq]; exact hz)

/-! ## The lazy reduction of `kp` versus eager reduction -/

theorem kpStep_snd_lt (a d : Nat) (rk : Nat × Nat) (hd : d < 3) :
    (kpStep (a, d) rk).2 < 3 := by
  unfold kpStep
  by_cases h : d + 1 = 3 <;> simp [h] <;> omega

theorem kp_fold_snd (ps : List (Nat × Nat)) : ∀ a d, d < 3 →
    (ps.foldl kpStep (a, d)).2 < 3 := by
  induction ps with
  | nil => intro a d hd; exact hd
  | cons rk ps ih =>
    intro a d hd
    rw [List.foldl_cons]
    have h2 := kpStep_snd_lt a d rk hd
    have hpair : kpStep (a, d) rk = ((kpStep (a, d) rk).1, (kpStep (a, d) rk).2) := rfl
    rw [hpair]
    exact ih _ _ h2

theorem kpStep_zero_fst (d : Nat) (rk : Nat × Nat) : (kpStep (0, d) rk).1 = 0 := by
  unfold kpStep
  by_cases h : d + 1 = 3 <;> simp [h]

theorem kp_fold_zero (ps : List (Nat × Nat)) : ∀ d, (ps.foldl kpStep (0, d)).1 = 0 := by
  induction ps with
  | nil => intro d; rfl
  | cons rk ps ih =>
    intro d
    rw [List.foldl_cons]
    have hpair : kpStep (0, d) rk = (0, (kpStep (0, d) rk).2) :=
      Prod.ext_iff.mpr ⟨kpStep_zero_fst d rk, rfl⟩
    rw [hpair]
    exact ih _

theorem kp_fold_rel (ps : List (Nat × Nat)) : ∀ a d, d < 3 → a ≤ 256 ^ (d + 1) →
    (∀ rk ∈ ps, rk.2 < 256) →
    (ps.foldl kpStep (a, d)).1 = 0 ∨
      ((ps.foldl kpStep (a, d)).1 ≤ 256 ^ ((ps.foldl kpStep (a, d)).2 + 1) ∧
       (ps.foldl kpStep (a, d)).1 % 257 =
         ps.foldl (fun x rk => x * tblEntry rk.1 rk.2 % 257) (a % 257)) := by
  induction ps with
  | nil =>
    intro a d hd ha hmem
    exact Or.inr ⟨ha, rfl⟩
  | cons rk ps ih =>
    intro a d hd ha hmem
    have hmem' : ∀ x ∈ ps, x.2 < 256 := fun x hx => hmem x (List.mem_cons_of_mem _ hx)
    have ht1 : 1 ≤ tblEntry rk.1 rk.2 := tblEntry_pos _ _
    have ht2 : tblEntry rk.1 rk.2 ≤ 256 := tblEntry_le _ _
    have hprod : a * tblEntry rk.1 rk.2 ≤ 256 ^ (d + 2) := by
      calc a * tblEntry rk.1 rk.2 ≤ 256 ^ (d + 1) * 256 := Nat.mul_le_mul ha ht2
      _ = 256 ^ (d + 2) := by ring
    have hle : (256:Nat) ^ (d + 2) ≤ 4294967296 := by
      have hd2 : d + 2 ≤ 4 := by omega
      calc (256:Nat) ^ (d + 2) ≤ 256 ^ 4 := Nat.pow_le_pow_right (by norm_num) hd2
      _ = 4294967296 := by norm_num
    rw [List.foldl_cons, List.foldl_cons]
    rcases Nat.lt_or_ge (a * tblEntry rk.1 rk.2) 4294967296 with hlt | hge
    · -- no wrap: the product is exact
      have hmod : a * tblEntry rk.1 rk.2 % 4294967296 = a * tblEntry rk.1 rk.2 :=
        Nat.mod_eq_of_lt hlt
      by_cases h3 : d + 1 = 3
      · have hstep : kpStep (a, d) rk = (a * tblEntry rk.1 rk.2 % 257, 0) := by
          unfold kpStep
          rw [if_pos h3, hmod]
        rw [hstep]
        have ha' : a * tblEntry rk.1 rk.2 % 257 ≤ 256 ^ (0 + 1) := by
          have := Nat.mod_lt (a * tblEntry rk.1 rk.2) (show 0 < 257 by norm_num)
          simpa using by omega
        rcases ih (a * tblEntry rk.1 rk.2 % 257) 0 (by norm_num) ha' hmem' with h0 | ⟨hb, hm⟩
        · exact Or.inl h0
        · refine Or.inr ⟨hb, ?_⟩
          rw [hm, Nat.mod_mod_of_dvd _ dvd_rfl, Nat.mod_mul_mod]
      · have hstep : kpStep (a, d) rk = (a * tblEntry rk.1 rk.2, d + 1) := by
          unfold kpStep
          rw [if_neg h3, hmod]
        rw [hstep]
        rcases ih (a * tblEntry rk.1 rk.2) (d + 1) (by omega) hprod hmem' with h0 | ⟨hb, hm⟩
        · exact Or.inl h0
        · refine Or.inr ⟨hb, ?_⟩
          rw [hm, Nat.mod_mul_mod]
    · -- the product reaches exactly 2^32 and wraps to zero
      have heq : a * tblEntry rk.1 rk.2 = 4294967296 :=
        le_antisymm (le_trans hprod hle) hge
      have hz : a * tblEntry rk.1 rk.2 % 4294967296 = 0 := by
        rw [heq]
      have hfst : (kpStep (a, d) rk).1 = 0 := by
        unfold kpStep
        by_cases h3 : d + 1 = 3 <;> simp [h3, hz]
      have hpair : kpStep (a, d) rk = (0, (kpStep (a, d) rk).2) :=
        Prod.ext_iff.mpr ⟨hfst, rfl⟩
      rw [hpair]
      exact Or.inl (kp_fold_zero ps _)

theorem kpRaw_cases (ps : List (Nat × Nat)) (hmem : ∀ rk ∈ ps, rk.2 < 256) :
    kpRaw ps = 0 ∨ kpRaw ps = kpExact ps := by
  have hrel := kp_fold_rel ps 1 0 (by norm_num) (by norm_num) hmem
  have hone : (1:Nat) % 257 = 1 := by norm_num
  rw [hone] at hrel
  unfold kpRaw kpExact
  rcases hrel with h0 | ⟨hb, hm⟩
  · left
    by_cases hsnd : (ps.foldl kpStep (1, 0)).2 = 0 <;> simp [hsnd, h0]
  · right
    by_cases hsnd : (ps.foldl kpStep (1, 0)).2 = 0
    · rw [if_pos hsnd]
      rw [hsnd] at hb
      have hlt : (ps.foldl kpStep (1, 0)).1 < 257 := by
        have : (256:Nat) ^ (0 + 1) = 256 := by norm_num
        omega
      rw [← Nat.mod_eq_of_lt hlt]
      exact hm
    · rw [if_neg hsnd]
      exact hm

theorem kpExact_fold (ps : List (Nat × Nat)) : ∀ a, (∀ rk ∈ ps, rk.2 < 256) →
    1 ≤ a → a ≤ 256 → ¬ (257 ∣ a) →
    1 ≤ ps.foldl (fun x rk => x * tblEntry rk.1 rk.2 % 257) a ∧
    ps.foldl (fun x rk => x * tblEntry rk.1 rk.2 % 257) a ≤ 256 ∧
    ¬ (257 ∣ ps.foldl (fun x rk => x * tblEntry rk.1 rk.2 % 257) a) := by
  induction ps with
  | nil => intro a _ h1 h2 h3; exact ⟨h1, h2, h3⟩
  | cons rk ps ih =>
    intro a hmem h1 h2 h3
    have hmem' : ∀ x ∈ ps, x.2 < 256 := fun x hx => hmem x (List.mem_cons_of_mem _ hx)
    have he : rk.2 < 257 := by
      have := hmem rk (List.mem_cons_self _ _)
      omega
    have htnd : ¬ (257 ∣ tblEntry rk.1 rk.2) := tblEntry_not_dvd _ _ he
    have hnd : ¬ (257 ∣ a * tblEntry rk.1 rk.2) := by
      intro hdvd
      rcases (Nat.Prime.dvd_mul prime257).mp hdvd with h | h
      · exact h3 h
      · exact htnd h
    have hz : a * tblEntry rk.1 rk.2 % 257 ≠ 0 := fun h => hnd (Nat.dvd_of_mod_eq_zero h)
    have hlt : a * tblEntry rk.1 rk.2 % 257 < 257 := Nat.mod_lt _ (by norm_num)
    rw [List.foldl_cons]
    exact ih _ hmem' (by omega) (by omega)
      (fun h => hz (Nat.eq_zero_of_dvd_of_lt h hlt))

/-! ## Schedule invariants -/

theorem k32Of_lt (key : List Nat) : ∀ (facs : List Nat), ∀ x ∈ k32Of key facs, x < 256 := by
  induction key with
  | nil => intro facs x hx; simp [k32Of] at hx
  | cons kb ks ih =>
    intro facs x hx
    cases facs with
    | nil => simp [k32Of] at hx
    | cons f fs =>
      simp only [k32Of, List.zipWith_cons_cons, List.mem_cons] at hx
      rcases hx with h | h
      · subst h
        exact Nat.mod_lt _ (by norm_num)
      · exact ih fs x h

theorem drawFacs_length : ∀ (n : Nat) (xs : XS), (drawFacs n xs).1.length = n := by
  intro n
  induction n with
  | zero => intro xs; rfl
  | succ n ih =>
    intro xs
    simp only [drawFacs, List.length_cons]
    rw [ih]

theorem schedAt_succ (kl i : Nat) : schedAt kl (i + 1) = schedStep (schedAt kl i) :=
  Function.iterate_succ_apply' schedStep i (setupSched kl)

theorem sched_inv (kl : Nat) : ∀ i, (schedAt kl i).facs.length = kl ∧
    (schedAt kl i).root.length = kl + 1 ∧
    (∀ rt ∈ (schedAt kl i).root, 1 ≤ rt ∧ rt ≤ 256) := by
  intro i
  induction i with
  | zero =>
    refine ⟨drawFacs_length kl seeds, ?_, ?_⟩
    · simp [schedAt, setupSched]
    · intro rt hrt
      simp only [schedAt, Nat.iterate, setupSched, List.mem_map, List.mem_range] at hrt
      rcases hrt with ⟨j, _, hj⟩
      have := pmTbl_le (2 * j + 1)
      omega
  | succ i ih =>
    rcases ih with ⟨hf, hr, hmem⟩
    rw [schedAt_succ]
    have hroot : ∀ rt ∈ (schedAt kl i).root.tail ++ [pmTbl (schedAt kl i).ri + 1],
        1 ≤ rt ∧ rt ≤ 256 := by
      intro rt hrt
      rcases List.mem_append.mp hrt with h | h
      · exact hmem rt (List.mem_of_mem_tail h)
      · have := pmTbl_le (schedAt kl i).ri
        rw [List.mem_singleton] at h
        omega
    have hrootlen : ((schedAt kl i).root.tail ++ [pmTbl (schedAt kl i).ri + 1]).length
        = kl + 1 := by
      rw [List.length_append, List.length_tail, hr]
      simp
    unfold schedStep
    by_cases hb : (schedAt kl i).ri + 2 > 255
    · rw [if_pos hb]
      refine ⟨?_, hrootlen, hroot⟩
      simp only [List.length_append, drawFacs_length, List.length_drop, hf]
      omega
    · rw [if_neg hb]
      exact ⟨hf, hrootlen, hroot⟩

theorem kpPairs_mem (key : List Nat) (i : Nat) :
    ∀ rk ∈ kpPairs key i, (1 ≤ rk.1 ∧ rk.1 ≤ 256) ∧ rk.2 < 256 := by
  intro rk hrk
  have h := List.of_mem_zip hrk
  exact ⟨(sched_inv key.length i).2.2 rk.1 h.1, k32Of_lt key _ rk.2 h.2⟩

/-! ## Characterization of the outer loop -/

theorem kpAt_eq_exact (key : List Nat) (i : Nat) (h : kpAt key i ≠ 0) :
    kpAt key i = kpExactAt key i := by
  rcases kpRaw_cases (kpPairs key i) (fun rk hrk => (kpPairs_mem key i rk hrk).2) with h0 | he
  · exact absurd h0 h
  · exact he

theorem kpExactAt_bounds (key : List Nat) (i : Nat) :
    1 ≤ kpExactAt key i ∧ kpExactAt key i ≤ 256 ∧ ¬ (257 ∣ kpExactAt key i) :=
  kpExact_fold (kpPairs key i) 1 (fun rk hrk => (kpPairs_mem key i rk hrk).2)
    (by norm_num) (by norm_num) (by norm_num)

theorem cipherGo_char (key : List Nat) (inv : Bool) :
    ∀ (input : List Nat) (i0 : Nat),
    (∀ t, t < input.length → kpAt key (i0 + t) ≠ 0) →
    cipherGo key inv input (schedAt key.length i0) = some (cipherSpec key inv i0 input) := by
  intro input
  induction input with
  | nil => intro i0 _; rfl
  | cons b rest ih =>
    intro i0 h
    have h0 : kpAt key i0 ≠ 0 := by
      have := h 0 (by simp)
      simpa using this
    have hkp : kpRaw ((schedAt key.length i0).root.zip
        (k32Of key (schedAt key.length i0).facs)) = kpAt key i0 := rfl
    show (if kpRaw ((schedAt key.length i0).root.zip
        (k32Of key (schedAt key.length i0).facs)) = 0 then none
      else (cipherGo key inv rest (schedStep (schedAt key.length i0))).map
        (fun out => outByte b
          (if inv then invAt (kpRaw ((schedAt key.length i0).root.zip
              (k32Of key (schedAt key.length i0).facs)) - 1) + 1
           else kpRaw ((schedAt key.length i0).root.zip
              (k32Of key (schedAt key.length i0).facs))) :: out)) = _
    rw [hkp, if_neg h0, ← schedAt_succ]
    have hrest : ∀ t, t < rest.length → kpAt key (i0 + 1 + t) ≠ 0 := by
      intro t ht
      have := h (t + 1) (by simp; omega)
      have harith : i0 + (t + 1) = i0 + 1 + t := by omega
      rwa [harith] at this
    rw [ih (i0 + 1) hrest]
    simp only [Option.map_some']
    rw [kpAt_eq_exact key i0 h0]
    rfl

theorem Cipher_char (input key : List Nat) (inv : Bool)
    (h : ∀ t, t < input.length → kpAt key t ≠ 0) :
    Cipher input key inv = some (cipherSpec key inv 0 input) := by
  have h0 : ∀ t, t < input.length → kpAt key (0 + t) ≠ 0 := by
    intro t ht
    simpa using h t ht
  have := cipherGo_char key inv input 0 h0
  exact this

theorem cipherSpec_length (key : List Nat) (inv : Bool) :
    ∀ (input : List Nat) (i0 : Nat), (cipherSpec key inv i0 input).length = input.length := by
  intro input
  induction input with
  | nil => intro i0; rfl
  | cons b rest ih =>
    intro i0
    simp only [cipherSpec, List.length_cons, ih]

theorem cipherSpec_getD (key : List Nat) (inv : Bool) :
    ∀ (input : List Nat) (i0 j : Nat), j < input.length →
    (cipherSpec key inv i0 input).getD j 0 =
      outByte (input.getD j 0) (effKp key inv (i0 + j)) := by
  intro input
  induction input with
  | nil => intro i0 j hj; simp at hj
  | cons b rest ih =>
    intro i0 j hj
    cases j with
    | zero => simp [cipherSpec]
    | succ j =>
      have hj' : j < rest.length := by simpa using hj
      have := ih (i0 + 1) j hj'
      have harith : i0 + 1 + j = i0 + (j + 1) := by omega
      rw [harith] at this
      simpa [cipherSpec] using this

theorem cipherSpec_mem (key : List Nat) (inv : Bool) :
    ∀ (input : List Nat) (i0 : Nat), ∀ x ∈ cipherSpec key inv i0 input, x < 256 := by
  intro input
  induction input with
  | nil => intro i0 x hx; simp [cipherSpec] at hx
  | cons b rest ih =>
    intro i0 x hx
    simp only [cipherSpec, List.mem_cons] at hx
    rcases hx with h | h
    · subst h
      exact Nat.mod_lt _ (by norm_num)
    · exact ih (i0 + 1) x h

/-! ## The instrumented cipher -/

theorem cipherInstr_fst (key : List Nat) (inv : Bool) :
    ∀ (input : List Nat) (s : Sched) (cnt : Nat),
    (cipherInstrGo key inv input s cnt).1 = cipherGo key inv input s := by
  intro input
  induction input with
  | nil => intro s cnt; rfl
  | cons b rest ih =>
    intro s cnt
    show (if kpRaw (s.root.zip (k32Of key s.facs)) = 0 then
        ((none : Option (List Nat)), cnt)
      else _).1 = _
    by_cases h : kpRaw (s.root.zip (k32Of key s.facs)) = 0
    · simp only [cipherInstrGo, cipherGo, if_pos h]
    · simp only [cipherInstrGo, cipherGo, if_neg h, ih]

theorem cipherInstr_count (key : List Nat) :
    ∀ (input : List Nat) (s : Sched) (cnt : Nat),
    (cipherInstrGo key true input s cnt).2 = (cipherInstrGo key false input s cnt).2 := by
  intro input
  induction input with
  | nil => intro s cnt; rfl
  | cons b rest ih =>
    intro s cnt
    by_cases h : kpRaw (s.root.zip (k32Of key s.facs)) = 0
    · simp only [cipherInstrGo, if_pos h]
    · simp only [cipherInstrGo, if_neg h, if_true, if_false]
      exact ih _ _

/-! ## The key product as a product over positions -/

theorem kp_fold_prod (ps : List (Nat × Nat)) : ∀ a, a < 257 →
    ps.foldl (fun x rk => x * tblEntry rk.1 rk.2 % 257) a =
      a * (ps.map (fun rk => tblEntry rk.1 rk.2)).prod % 257 := by
  induction ps with
  | nil =>
    intro a ha
    simp [Nat.mod_eq_of_lt ha]
  | cons rk ps ih =>
    intro a ha
    rw [List.foldl_cons, List.map_cons, List.prod_cons,
      ih (a * tblEntry rk.1 rk.2 % 257) (Nat.mod_lt _ (by norm_num)),
      Nat.mod_mul_mod, mul_assoc]

theorem kpExact_eq_prod (ps : List (Nat × Nat)) :
    kpExact ps = (ps.map (fun rk => tblEntry rk.1 rk.2)).prod % 257 := by
  rw [kpExact, kp_fold_prod ps 1 (by norm_num), one_mul]

theorem facProd_eq : ∀ (roots facs key : List Nat),
    ((roots.zip (k32Of key facs)).map (fun rk => tblEntry rk.1 rk.2)).prod =
      facProd roots facs (key.map (fun x => x + 1)) := by
  intro roots
  induction roots with
  | nil => intro facs key; simp [facProd]
  | cons rt rts ih =>
    intro facs key
    cases facs with
    | nil =>
      cases key with
      | nil => simp [k32Of, facProd]
      | cons kb ks => simp [k32Of, facProd]
    | cons f fs =>
      cases key with
      | nil => simp [k32Of, facProd]
      | cons kb ks =>
        simp only [k32Of, List.zipWith_cons_cons, List.zip_cons_cons, List.map_cons,
          List.prod_cons, facProd]
        rw [← ih fs ks]
        rfl

theorem tblE_mod (rt f x y : Nat) (h : x % 256 = y % 256) :
    tblEntry rt (x * f % 256) = tblEntry rt (y * f % 256) := by
  have : x * f % 256 = y * f % 256 := by
    rw [Nat.mul_mod, h, ← Nat.mul_mod]
  rw [this]

theorem tblE_hom (rt f x y : Nat) :
    tblEntry rt (x * f % 256) * tblEntry rt (y * f % 256) ≡
      tblEntry rt ((x + y) * f % 256) [MOD 257] := by
  have h256 : ∀ e : Nat, e % 256 < 257 := by
    intro e
    have := Nat.mod_lt e (show 0 < 256 by norm_num)
    omega
  rw [tblEntry_eq rt _ (h256 _), tblEntry_eq rt _ (h256 _), tblEntry_eq rt _ (h256 _)]
  have hcyc := rootOfRow_pow256 ((rt - 1) / 2)
  have h1 : rootOfRow ((rt - 1) / 2) ^ (x * f % 256) % 257 *
      (rootOfRow ((rt - 1) / 2) ^ (y * f % 256) % 257) ≡
      rootOfRow ((rt - 1) / 2) ^ (x * f) * rootOfRow ((rt - 1) / 2) ^ (y * f)
        [MOD 257] :=
    Nat.ModEq.mul ((Nat.mod_modEq _ _).trans (pow_mod_cycle _ _ hcyc).symm)
      ((Nat.mod_modEq _ _).trans (pow_mod_cycle _ _ hcyc).symm)
  have h2 : rootOfRow ((rt - 1) / 2) ^ (x * f) * rootOfRow ((rt - 1) / 2) ^ (y * f) =
      rootOfRow ((rt - 1) / 2) ^ ((x + y) * f) := by
    rw [← pow_add, add_mul]
  have h3 : rootOfRow ((rt - 1) / 2) ^ ((x + y) * f) ≡
      rootOfRow ((rt - 1) / 2) ^ ((x + y) * f % 256) % 257 [MOD 257] :=
    (pow_mod_cycle _ _ hcyc).trans (Nat.mod_modEq _ _).symm
  exact (h1.trans (h2 ▸ h3))

theorem facProd_add : ∀ (roots facs xs ys : List Nat), xs.length = ys.length →
    facProd roots facs xs * facProd roots facs ys ≡
      facProd roots facs (List.zipWith (· + ·) xs ys) [MOD 257] := by
  intro roots
  induction roots with
  | nil => intro facs xs ys _; exact Nat.ModEq.refl _
  | cons rt rts ih =>
    intro facs xs ys hlen
    cases facs with
    | nil =>
      cases xs with
      | nil =>
        cases ys with
        | nil => exact Nat.ModEq.refl _
        | cons y ys => simp at hlen
      | cons x xs =>
        cases ys with
        | nil => simp at hlen
        | cons y ys => exact Nat.ModEq.refl _
    | cons f fs =>
      cases xs with
      | nil =>
        cases ys with
        | nil => exact Nat.ModEq.refl _
        | cons y ys => simp at hlen
      | cons x xs =>
        cases ys with
        | nil => simp at hlen
        | cons y ys =>
          have hlen' : xs.length = ys.length := by simpa using hlen
          simp only [facProd, List.zipWith_cons_cons]
          calc tblEntry rt (x * f % 256) * facProd rts fs xs *
              (tblEntry rt (y * f % 256) * facProd rts fs ys)
              = tblEntry rt (x * f % 256) * tblEntry rt (y * f % 256) *
                (facProd rts fs xs * facProd rts fs ys) := by ring
          _ ≡ tblEntry rt ((x + y) * f % 256) *
                facProd rts fs (List.zipWith (· + ·) xs ys) [MOD 257] :=
              (tblE_hom rt f x y).mul (ih fs xs ys hlen')

theorem facProd_congr : ∀ (roots facs xs ys : List Nat), xs.length = ys.length →
    (∀ j, xs.getD j 0 % 256 = ys.getD j 0 % 256) →
    facProd roots facs xs = facProd roots facs ys := by
  intro roots
  induction roots with
  | nil => intro facs xs ys _ _; rfl
  | cons rt rts ih =>
    intro facs xs ys hlen hcong
    cases facs with
    | nil =>
      cases xs with
      | nil =>
        cases ys with
        | nil => rfl
        | cons y ys => simp at hlen
      | cons x xs =>
        cases ys with
        | nil => simp at hlen
        | cons y ys => rfl
    | cons f fs =>
      cases xs with
      | nil =>
        cases ys with
        | nil => rfl
        | cons y ys => simp at hlen
      | cons x xs =>
        cases ys with
        | nil => simp at hlen
        | cons y ys =>
          have hlen' : xs.length = ys.length := by simpa using hlen
          have hhead : x % 256 = y % 256 := hcong 0
          have htail : ∀ j, xs.getD j 0 % 256 = ys.getD j 0 % 256 := fun j => hcong (j + 1)
          simp only [facProd]
          rw [tblE_mod rt f x y hhead, ih fs xs ys hlen' htail]

theorem facProd_replicate : ∀ (roots facs : List Nat) (n : Nat),
    facProd roots facs (List.replicate n 0) = 1 := by
  intro roots
  induction roots with
  | nil => intro facs n; rfl
  | cons rt rts ih =>
    intro facs n
    cases facs with
    | nil =>
      cases n with
      | zero => rfl
      | succ n => rfl
    | cons f fs =>
      cases n with
      | zero => rfl
      | succ n =>
        simp only [List.replicate_succ, facProd]
        rw [ih fs n]
        have h0 : tblEntry rt (0 * f % 256) = 1 := by
          rw [tblEntry_eq rt _ (by norm_num)]
          norm_num
        rw [h0]

/-! ## Pointwise sums of keys and the compound-key product identity -/

theorem getD_replicate_zero : ∀ (n j : Nat), (List.replicate n (0:Nat)).getD j 0 = 0 := by
  intro n
  induction n with
  | zero => intro j; rfl
  | succ n ih =>
    intro j
    cases j with
    | zero => rfl
    | succ j => exact ih j

theorem getD_zipWith_add : ∀ (xs ys : List Nat) (j : Nat), j < xs.length → j < ys.length →
    (List.zipWith (· + ·) xs ys).getD j 0 = xs.getD j 0 + ys.getD j 0 := by
  intro xs
  induction xs with
  | nil => intro ys j h _; simp at h
  | cons x xs ih =>
    intro ys j h1 h2
    cases ys with
    | nil => simp at h2
    | cons y ys =>
      cases j with
      | zero => rfl
      | succ j =>
        have h1' : j < xs.length := by simpa using h1
        have h2' : j < ys.length := by simpa using h2
        simpa using ih ys j h1' h2'

theorem getD_map_add_one : ∀ (k : List Nat) (j : Nat), j < k.length →
    (k.map (fun x => x + 1)).getD j 0 = k.getD j 0 + 1 := by
  intro k
  induction k with
  | nil => intro j h; simp at h
  | cons x xs ih =>
    intro j h
    cases j with
    | zero => rfl
    | succ j =>
      have h' : j < xs.length := by simpa using h
      simpa using ih j h'

theorem sumK_length (kLen : Nat) : ∀ (K : List (List Nat)), (∀ k ∈ K, k.length = kLen) →
    (sumK kLen K).length = kLen := by
  intro K
  induction K with
  | nil => intro _; simp [sumK]
  | cons k K ih =>
    intro h
    have hk : k.length = kLen := h k (List.mem_cons_self _ _)
    have hK : ∀ x ∈ K, x.length = kLen := fun x hx => h x (List.mem_cons_of_mem _ hx)
    simp only [sumK, List.length_zipWith, List.length_map, hk, ih hK]
    omega

theorem sumK_getD (kLen : Nat) : ∀ (K : List (List Nat)) (j : Nat), j < kLen →
    (∀ k ∈ K, k.length = kLen) → (sumK kLen K).getD j 0 = sumFieldAt K j := by
  intro K
  induction K with
  | nil =>
    intro j hj _
    simp only [sumK, sumFieldAt, List.map_nil, List.sum_nil]
    exact getD_replicate_zero kLen j
  | cons k K ih =>
    intro j hj h
    have hk : k.length = kLen := h k (List.mem_cons_self _ _)
    have hK : ∀ x ∈ K, x.length = kLen := fun x hx => h x (List.mem_cons_of_mem _ hx)
    have h1 : j < (k.map (fun x => x + 1)).length := by
      rw [List.length_map, hk]; exact hj
    have h2 : j < (sumK kLen K).length := by rw [sumK_length kLen K hK]; exact hj
    simp only [sumK, sumFieldAt, List.map_cons, List.sum_cons]
    rw [getD_zipWith_add _ _ j h1 h2, getD_map_add_one k j (by rw [hk]; exact hj),
      ih j hj hK]
    rfl

theorem prod_map_mod : ∀ (K : List (List Nat)) (g : List Nat → Nat),
    (K.map (fun k => g k % 257)).prod ≡ (K.map g).prod [MOD 257] := by
  intro K g
  induction K with
  | nil => exact Nat.ModEq.refl _
  | cons k K ih =>
    simp only [List.map_cons, List.prod_cons]
    exact (Nat.mod_modEq _ _).mul ih

theorem facProd_sumK (kLen : Nat) (roots facs : List Nat) :
    ∀ (K : List (List Nat)), (∀ k ∈ K, k.length = kLen) →
    (K.map (fun k => facProd roots facs (k.map (fun x => x + 1)))).prod ≡
      facProd roots facs (sumK kLen K) [MOD 257] := by
  intro K
  induction K with
  | nil =>
    intro _
    simp only [List.map_nil, List.prod_nil, sumK]
    rw [facProd_replicate]
  | cons k K ih =>
    intro h
    have hk : k.length = kLen := h k (List.mem_cons_self _ _)
    have hK : ∀ x ∈ K, x.length = kLen := fun x hx => h x (List.mem_cons_of_mem _ hx)
    have hlen : (k.map (fun x => x + 1)).length = (sumK kLen K).length := by
      rw [List.length_map, hk, sumK_length kLen K hK]
    simp only [List.map_cons, List.prod_cons, sumK]
    calc facProd roots facs (k.map (fun x => x + 1)) *
        (K.map (fun x => facProd roots facs (x.map (fun v => v + 1)))).prod
        ≡ facProd roots facs (k.map (fun x => x + 1)) *
          facProd roots facs (sumK kLen K) [MOD 257] := (ih hK).mul_left _
    _ ≡ facProd roots facs
          (List.zipWith (· + ·) (k.map (fun x => x + 1)) (sumK kLen K)) [MOD 257] :=
        facProd_add roots facs _ _ hlen

theorem kpExactAt_facProd (key : List Nat) (i : Nat) :
    kpExactAt key i = facProd (schedAt key.length i).root (schedAt key.length i).facs
      (key.map (fun x => x + 1)) % 257 := by
  rw [kpExactAt, kpExact_eq_prod, kpPairs, facProd_eq]

theorem prod_kpExact (kLen i : Nat) (K : List (List Nat)) (c : List Nat)
    (hK : ∀ k ∈ K, k.length = kLen) (hc : c.length = kLen)
    (hsum : ∀ j, j < kLen → (c.getD j 0 + 1) % 256 = sumFieldAt K j % 256) :
    (K.map (fun k => kpExactAt k i)).prod ≡ kpExactAt c i [MOD 257] := by
  have hmap : K.map (fun k => kpExactAt k i) =
      K.map (fun k => facProd (schedAt kLen i).root (schedAt kLen i).facs
        (k.map (fun x => x + 1)) % 257) := by
    apply List.map_congr_left
    intro k hk
    rw [kpExactAt_facProd, hK k hk]
  have hcfac : kpExactAt c i = facProd (schedAt kLen i).root (schedAt kLen i).facs
      (c.map (fun x => x + 1)) % 257 := by
    rw [kpExactAt_facProd, hc]
  have hcong : facProd (schedAt kLen i).root (schedAt kLen i).facs (sumK kLen K) =
      facProd (schedAt kLen i).root (schedAt kLen i).facs (c.map (fun x => x + 1)) := by
    apply facProd_congr
    · rw [sumK_length kLen K hK, List.length_map, hc]
    · intro j
      rcases Nat.lt_or_ge j kLen with hj | hj
      · rw [sumK_getD kLen K j hj hK, getD_map_add_one c j (by rw [hc]; exact hj)]
        exact (hsum j hj).symm
      · rw [List.getD_eq_default _ _ (by rw [sumK_length kLen K hK]; exact hj),
          List.getD_eq_default _ _ (by rw [List.length_map, hc]; exact hj)]
  rw [hmap, hcfac, ← hcong]
  calc (K.map (fun k => facProd (schedAt kLen i).root (schedAt kLen i).facs
        (k.map (fun x => x + 1)) % 257)).prod
      ≡ (K.map (fun k => facProd (schedAt kLen i).root (schedAt kLen i).facs
        (k.map (fun x => x + 1)))).prod [MOD 257] := prod_map_mod K _
  _ ≡ facProd (schedAt kLen i).root (schedAt kLen i).facs (sumK kLen K) [MOD 257] :=
      facProd_sumK kLen _ _ K hK
  _ ≡ facProd (schedAt kLen i).root (schedAt kLen i).facs (sumK kLen K) % 257
        [MOD 257] := (Nat.mod_modEq _ _).symm

/-! ## The inverse lookup and the output byte -/

set_option maxRecDepth 2048 in
theorem invAt_spec : ∀ a, a < 256 → ((invAt a + 1) * (a + 1)) % 257 = 1 ∧ invAt a ≤ 255 := by
  decide

theorem invVal_mul (x : Nat) (h1 : 1 ≤ x) (h2 : x ≤ 256) :
    (invVal x * x) % 257 = 1 ∧ 1 ≤ invVal x ∧ invVal x ≤ 256 := by
  have ha : x - 1 < 256 := by omega
  have h := invAt_spec (x - 1) ha
  have hx : x - 1 + 1 = x := by omega
  rw [hx] at h
  exact ⟨h.1, by unfold invVal; omega, by unfold invVal; omega⟩

theorem effKp_bounds (key : List Nat) (inv : Bool) (i : Nat) :
    1 ≤ effKp key inv i ∧ effKp key inv i ≤ 256 ∧ ¬ (257 ∣ effKp key inv i) := by
  rcases kpExactAt_bounds key i with ⟨h1, h2, _⟩
  have hnd : ∀ y : Nat, 1 ≤ y → y ≤ 256 → ¬ (257 ∣ y) := by
    intro y hy1 hy2 hdvd
    have := Nat.le_of_dvd (by omega) hdvd
    omega
  cases inv with
  | false => exact ⟨h1, h2, hnd _ h1 h2⟩
  | true =>
    rcases invVal_mul (kpExactAt key i) h1 h2 with ⟨_, hh1, hh2⟩
    exact ⟨hh1, hh2, hnd _ hh1 hh2⟩

theorem outByte_val (b kp : Nat) (hnd : ¬ (257 ∣ (b + 1) * kp)) :
    outByte b kp + 1 = (b + 1) * kp % 257 ∧ outByte b kp < 256 := by
  have hx1 : (b + 1) * kp % 257 ≠ 0 := fun h => hnd (Nat.dvd_of_mod_eq_zero h)
  have hx2 : (b + 1) * kp % 257 < 257 := Nat.mod_lt _ (by norm_num)
  unfold outByte
  have hsplit : (b + 1) * kp % 257 + 255 = ((b + 1) * kp % 257 - 1) + 256 := by omega
  rw [hsplit, Nat.add_mod_right, Nat.mod_eq_of_lt (by omega)]
  omega

/-! ## Chains of Cipher calls -/

theorem multProd_cons (k : List Nat) (inv : Bool) (ks : List (List Nat × Bool)) (i : Nat) :
    multProd ((k, inv) :: ks) i = effKp k inv i * multProd ks i := by
  simp [multProd]

theorem multProd_append (l1 l2 : List (List Nat × Bool)) (i : Nat) :
    multProd (l1 ++ l2) i = multProd l1 i * multProd l2 i := by
  simp [multProd]

theorem getD_mem_of_lt : ∀ (l : List Nat) (j : Nat), j < l.length → l.getD j 0 ∈ l := by
  intro l
  induction l with
  | nil => intro j h; simp at h
  | cons x xs ih =>
    intro j h
    cases j with
    | zero => exact List.mem_cons_self _ _
    | succ j =>
      have h' : j < xs.length := by simpa using h
      exact List.mem_cons_of_mem _ (ih j h')

theorem applyChain_char : ∀ (ks : List (List Nat × Bool)) (c : List Nat),
    (∀ kb ∈ ks, ∀ i, i < c.length → kpAt kb.1 i ≠ 0) →
    (∀ x ∈ c, x < 256) →
    ∃ c', applyChain ks c = some c' ∧ c'.length = c.length ∧ (∀ x ∈ c', x < 256) ∧
      ∀ j, j < c.length →
        (c'.getD j 0 + 1) % 257 = ((c.getD j 0 + 1) * multProd ks j) % 257 := by
  intro ks
  induction ks with
  | nil =>
    intro c _ hb
    refine ⟨c, rfl, rfl, hb, ?_⟩
    intro j _
    simp [multProd]
  | cons kb ks ih =>
    intro c hsafe hb
    have hhead : ∀ i, i < c.length → kpAt kb.1 i ≠ 0 :=
      hsafe kb (List.mem_cons_self _ _)
    have htail : ∀ x ∈ ks, ∀ i, i < c.length → kpAt x.1 i ≠ 0 :=
      fun x hx => hsafe x (List.mem_cons_of_mem _ hx)
    have hcipher : Cipher c kb.1 kb.2 = some (cipherSpec kb.1 kb.2 0 c) :=
      Cipher_char c kb.1 kb.2 hhead
    have hlen1 : (cipherSpec kb.1 kb.2 0 c).length = c.length := cipherSpec_length _ _ _ _
    have hb1 : ∀ x ∈ cipherSpec kb.1 kb.2 0 c, x < 256 := cipherSpec_mem _ _ _ _
    have htail' : ∀ x ∈ ks, ∀ i, i < (cipherSpec kb.1 kb.2 0 c).length → kpAt x.1 i ≠ 0 := by
      intro x hx i hi
      rw [hlen1] at hi
      exact htail x hx i hi
    rcases ih (cipherSpec kb.1 kb.2 0 c) htail' hb1 with ⟨c', hc', hlen', hb', hrel⟩
    refine ⟨c', ?_, by rw [hlen', hlen1], hb', ?_⟩
    · show (Cipher c kb.1 kb.2).bind (applyChain ks) = some c'
      rw [hcipher]
      exact hc'
    · intro j hj
      have hj1 : j < (cipherSpec kb.1 kb.2 0 c).length := by rw [hlen1]; exact hj
      have hspec := cipherSpec_getD kb.1 kb.2 c 0 j hj
      rw [Nat.zero_add] at hspec
      have hbj : c.getD j 0 < 256 := hb _ (getD_mem_of_lt c j hj)
      rcases effKp_bounds kb.1 kb.2 j with ⟨he1, he2, hend⟩
      have hbnd : ¬ (257 ∣ (c.getD j 0 + 1) * effKp kb.1 kb.2 j) := by
        intro hdvd
        rcases (Nat.Prime.dvd_mul prime257).mp hdvd with h | h
        · have := Nat.le_of_dvd (by omega) h
          omega
        · exact hend h
      rcases outByte_val (c.getD j 0) (effKp kb.1 kb.2 j) hbnd with ⟨hout, _⟩
      have h1 := hrel j hj1
      rw [hspec, hout] at h1
      rw [h1, Nat.mod_mul_mod, multProd_cons, ← mul_assoc]

theorem list_ext_getD : ∀ (l1 l2 : List Nat), l1.length = l2.length →
    (∀ j, j < l1.length → l1.getD j 0 = l2.getD j 0) → l1 = l2 := by
  intro l1
  induction l1 with
  | nil =>
    intro l2 hlen _
    cases l2 with
    | nil => rfl
    | cons y ys => simp at hlen
  | cons x xs ih =>
    intro l2 hlen hj
    cases l2 with
    | nil => simp at hlen
    | cons y ys =>
      have hx : x = y := hj 0 (by simp)
      have hlen' : xs.length = ys.length := by simpa using hlen
      have hj' : ∀ j, j < xs.length → xs.getD j 0 = ys.getD j 0 := by
        intro j hjj
        have := hj (j + 1) (by simp; omega)
        simpa using this
      rw [hx, ih ys hlen' hj']

theorem getD_append_left : ∀ (l1 l2 : List Nat) (j : Nat), j < l1.length →
    (l1 ++ l2).getD j 0 = l1.getD j 0 := by
  intro l1
  induction l1 with
  | nil => intro l2 j h; simp at h
  | cons x xs ih =>
    intro l2 j h
    cases j with
    | zero => rfl
    | succ j =>
      have h' : j < xs.length := by simpa using h
      simpa using ih l2 j h'

theorem getD_append_self : ∀ (l1 l2 : List Nat) (d : Nat),
    (l1 ++ l2).getD l1.length d = l2.getD 0 d := by
  intro l1
  induction l1 with
  | nil => intro l2 d; rfl
  | cons x xs ih => intro l2 d; simpa using ih l2 d

theorem getD_append_of_length (l1 l2 : List Nat) (j d : Nat) (h : j = l1.length) :
    (l1 ++ l2).getD j d = l2.getD 0 d := by
  rw [h]
  exact getD_append_self l1 l2 d

theorem getD_map_range (f : Nat → Nat) : ∀ (n j : Nat), j < n →
    ((List.range n).map f).getD j 0 = f j := by
  intro n
  induction n with
  | zero => intro j h; omega
  | succ n ih =>
    intro j h
    rw [List.range_succ, List.map_append]
    rcases Nat.lt_or_ge j n with hj | hj
    · rw [getD_append_left _ _ j (by simpa using hj)]
      exact ih j hj
    · have hjn : j = n := by omega
      subst hjn
      rw [getD_append_of_length _ _ _ _ (by simp)]
      rfl

/-! ## Structure of generated keysets -/

theorem getD_append_self' {α : Type} : ∀ (l1 l2 : List α) (d : α),
    (l1 ++ l2).getD l1.length d = l2.getD 0 d := by
  intro l1
  induction l1 with
  | nil => intro l2 d; rfl
  | cons x xs ih => intro l2 d; simpa using ih l2 d

theorem getD_append_left' {α : Type} : ∀ (l1 l2 : List α) (j : Nat) (d : α),
    j < l1.length → (l1 ++ l2).getD j d = l1.getD j d := by
  intro l1
  induction l1 with
  | nil => intro l2 j d h; simp at h
  | cons x xs ih =>
    intro l2 j d h
    cases j with
    | zero => rfl
    | succ j =>
      have h' : j < xs.length := by simpa using h
      simpa using ih l2 j d h'

theorem getD_append_of_len' {α : Type} (l1 l2 : List α) (j : Nat) (d : α)
    (h : j = l1.length) : (l1 ++ l2).getD j d = l2.getD 0 d := by
  rw [h]
  exact getD_append_self' l1 l2 d

theorem take_append_of_len {α : Type} (l1 l2 : List α) (m : Nat) (h : m = l1.length) :
    (l1 ++ l2).take m = l1 := by
  rw [h]
  exact List.take_left _ _

theorem getD_map_range' {α : Type} (f : Nat → α) (d : α) : ∀ (n j : Nat), j < n →
    ((List.range n).map f).getD j d = f j := by
  intro n
  induction n with
  | zero => intro j h; omega
  | succ n ih =>
    intro j h
    rw [List.range_succ, List.map_append]
    rcases Nat.lt_or_ge j n with hj | hj
    · rw [getD_append_left' _ _ j d (by simpa using hj)]
      exact ih j hj
    · have hjn : j = n := by omega
      subst hjn
      rw [getD_append_of_len' _ _ _ _ (by simp)]
      rfl

theorem randKeys_length (rand : Nat → Nat) (kLen n : Nat) :
    (randKeys rand kLen n).length = n := by
  simp [randKeys]

theorem randKeys_mem_length (rand : Nat → Nat) (kLen n : Nat) :
    ∀ k ∈ randKeys rand kLen n, k.length = kLen := by
  intro k hk
  rcases List.mem_map.mp hk with ⟨i, _, hi⟩
  rw [← hi]
  simp [keyBytes]

theorem compound_length (kLen : Nat) (ks : List (List Nat)) :
    (compoundKeyOf kLen ks).length = kLen := by
  simp [compoundKeyOf]

theorem keyset_take (rand : Nat → Nat) (kLen n : Nat) :
    (GenerateKeyset rand kLen n).take (n - 1) = randKeys rand kLen (n - 1) :=
  take_append_of_len _ _ _ (randKeys_length rand kLen (n - 1)).symm

theorem keyset_getD_last (rand : Nat → Nat) (kLen n : Nat) :
    (GenerateKeyset rand kLen n).getD (n - 1) [] =
      compoundKeyOf kLen (randKeys rand kLen (n - 1)) := by
  show (randKeys rand kLen (n - 1) ++ [_]).getD (n - 1) [] = _
  rw [getD_append_of_len' _ _ _ _ (randKeys_length rand kLen (n - 1)).symm]
  rfl

theorem keyset_getD_rand (rand : Nat → Nat) (kLen n i : Nat) (h : i < n - 1) :
    (GenerateKeyset rand kLen n).getD i [] = keyBytes rand kLen i := by
  show (randKeys rand kLen (n - 1) ++ [_]).getD i [] = _
  rw [getD_append_left' _ _ i [] (by rw [randKeys_length]; exact h)]
  exact getD_map_range' (keyBytes rand kLen) [] (n - 1) i h

theorem keyset_length (rand : Nat → Nat) (kLen n : Nat) (h : 1 ≤ n) :
    (GenerateKeyset rand kLen n).length = n := by
  show (randKeys rand kLen (n - 1) ++ [_]).length = n
  rw [List.length_append, randKeys_length]
  simp
  omega

theorem keyset_mem_length (rand : Nat → Nat) (kLen n : Nat) :
    ∀ k ∈ GenerateKeyset rand kLen n, k.length = kLen := by
  intro k hk
  rcases List.mem_append.mp hk with h | h
  · exact randKeys_mem_length rand kLen (n - 1) k h
  · rw [List.mem_singleton] at h
    rw [h]
    exact compound_length _ _

theorem compoundAcc_modeq (j : Nat) : ∀ (ks : List (List Nat)) (a : Nat),
    List.foldl (fun a k => (a + (k.getD j 0 + 1)) % 4294967296) a ks ≡
      a + sumFieldAt ks j [MOD 256] := by
  intro ks
  induction ks with
  | nil =>
    intro a
    simp only [List.foldl_nil, sumFieldAt, List.map_nil, List.sum_nil, Nat.add_zero]
    exact Nat.ModEq.refl a
  | cons k ks ih =>
    intro a
    rw [List.foldl_cons]
    have hwrap : (a + (k.getD j 0 + 1)) % 4294967296 ≡ a + (k.getD j 0 + 1) [MOD 256] :=
      Nat.ModEq.of_dvd (by norm_num) (Nat.mod_modEq _ _)
    calc List.foldl (fun a k => (a + (k.getD j 0 + 1)) % 4294967296)
          ((a + (k.getD j 0 + 1)) % 4294967296) ks
        ≡ (a + (k.getD j 0 + 1)) % 4294967296 + sumFieldAt ks j [MOD 256] := ih _
    _ ≡ a + (k.getD j 0 + 1) + sumFieldAt ks j [MOD 256] := hwrap.add_right _
    _ = a + sumFieldAt (k :: ks) j := by
        simp only [sumFieldAt, List.map_cons, List.sum_cons]
        omega

theorem compound_getD (kLen : Nat) (ks : List (List Nat)) (j : Nat) (hj : j < kLen) :
    (compoundKeyOf kLen ks).getD j 0 = (compoundAcc ks j % 256 + 255) % 256 :=
  getD_map_range' _ 0 kLen j hj

theorem wrap_sub_one_add_one (y : Nat) : ((y % 256 + 255) % 256 + 1) % 256 = y % 256 := by
  have hz : y % 256 < 256 := Nat.mod_lt _ (by norm_num)
  rcases Nat.eq_zero_or_pos (y % 256) with h | h
  · rw [h]
  · have h1 : y % 256 + 255 = (y % 256 - 1) + 256 := by omega
    rw [h1, Nat.add_mod_right, Nat.mod_eq_of_lt (by omega : y % 256 - 1 < 256)]
    have h2 : y % 256 - 1 + 1 = y % 256 := by omega
    rw [h2, Nat.mod_eq_of_lt hz]

theorem compound_sum (kLen : Nat) (ks : List (List Nat)) (j : Nat) (hj : j < kLen) :
    ((compoundKeyOf kLen ks).getD j 0 + 1) % 256 = sumFieldAt ks j % 256 := by
  rw [compound_getD kLen ks j hj]
  have hacc : compoundAcc ks j % 256 = sumFieldAt ks j % 256 := by
    have := compoundAcc_modeq j ks 0
    rw [Nat.zero_add] at this
    exact this
  rw [← hacc]
  exact wrap_sub_one_add_one _

/-! ## The round-trip multiplier -/

theorem multProd_roundtrip (kLen i : Nat) (K perm : List (List Nat)) (c : List Nat)
    (hK : ∀ k ∈ K, k.length = kLen) (hc : c.length = kLen)
    (hperm : perm.Perm K)
    (hsum : ∀ j, j < kLen → (c.getD j 0 + 1) % 256 = sumFieldAt K j % 256) :
    multProd (perm.map (fun k => (k, false)) ++ [(c, true)]) i ≡ 1 [MOD 257] := by
  rw [multProd_append]
  have h1 : multProd (perm.map (fun k => (k, false))) i =
      (perm.map (fun k => kpExactAt k i)).prod := by
    rw [multProd, List.map_map]
    apply congrArg List.prod
    apply List.map_congr_left
    intro k _
    simp [effKp]
  have h2 : multProd [(c, true)] i = invVal (kpExactAt c i) := by
    simp [multProd, effKp]
  rw [h1, h2, (hperm.map (fun k => kpExactAt k i)).prod_eq]
  rcases kpExactAt_bounds c i with ⟨hb1, hb2, _⟩
  rcases invVal_mul (kpExactAt c i) hb1 hb2 with ⟨hinv, _, _⟩
  calc (K.map (fun k => kpExactAt k i)).prod * invVal (kpExactAt c i)
      ≡ kpExactAt c i * invVal (kpExactAt c i) [MOD 257] :=
        (prod_kpExact kLen i K c hK hc hsum).mul_right _
  _ ≡ 1 [MOD 257] := by
      unfold Nat.ModEq
      rw [mul_comm, hinv]

/-! ## The fallible random source -/

theorem drawKeys_none (src : Nat → Option (List Nat)) : ∀ (m s : Nat),
    (drawKeys src s m = none ↔ ∃ t, t < m ∧ src (s + t) = none) := by
  intro m
  induction m with
  | zero =>
    intro s
    constructor
    · intro h
      exact absurd h (by simp [drawKeys])
    · intro ⟨t, ht, _⟩
      omega
  | succ m ih =>
    intro s
    cases hs : src s with
    | none =>
      constructor
      · intro _
        exact ⟨0, by omega, by simpa using hs⟩
      · intro _
        simp [drawKeys, hs]
    | some k =>
      constructor
      · intro h
        simp only [drawKeys, hs, Option.map_eq_none'] at h
        rcases (ih (s + 1)).mp h with ⟨t, ht, hsrc⟩
        refine ⟨t + 1, by omega, ?_⟩
        have : s + 1 + t = s + (t + 1) := by omega
        rwa [this] at hsrc
      · intro ⟨t, ht, hsrc⟩
        cases t with
        | zero =>
          rw [Nat.add_zero] at hsrc
          rw [hsrc] at hs
          exact absurd hs (by simp)
        | succ t =>
          simp only [drawKeys, hs, Option.map_eq_none']
          apply (ih (s + 1)).mpr
          refine ⟨t, by omega, ?_⟩
          have : s + 1 + t = s + (t + 1) := by omega
          rwa [this]

theorem drawKeys_length (src : Nat → Option (List Nat)) : ∀ (m s : Nat) (ks : List (List Nat)),
    drawKeys src s m = some ks → ks.length = m := by
  intro m
  induction m with
  | zero =>
    intro s ks h
    simp only [drawKeys, Option.some_inj] at h
    rw [← h]
    rfl
  | succ m ih =>
    intro s ks h
    cases hs : src s with
    | none => rw [drawKeys, hs] at h; exact absurd h (by simp)
    | some k =>
      rw [drawKeys, hs] at h
      cases hd : drawKeys src (s + 1) m with
      | none => rw [hd] at h; exact absurd h (by simp)
      | some ks' =>
        rw [hd] at h
        simp only [Option.map_some', Option.some_inj] at h
        rw [← h, List.length_cons, ih (s + 1) ks' hd]

/-! ## The empty key -/

theorem outByte_one (b : Nat) (hb : b < 256) : outByte b 1 = b := by
  unfold outByte
  rw [mul_one, Nat.mod_eq_of_lt (by omega : b + 1 < 257)]
  have h : b + 1 + 255 = b + 256 := by omega
  rw [h, Nat.add_mod_right, Nat.mod_eq_of_lt hb]

theorem kpPairs_nil_key (i : Nat) : kpPairs [] i = [] := by
  unfold kpPairs k32Of
  rw [List.zipWith_nil_left, List.zip_nil_right]

theorem kpAt_nil_key (i : Nat) : kpAt [] i = 1 := by
  rw [kpAt, kpPairs_nil_key]
  rfl

theorem effKp_nil_key (inv : Bool) (i : Nat) : effKp [] inv i = 1 := by
  have h : kpExactAt [] i = 1 := by rw [kpExactAt, kpPairs_nil_key]; rfl
  cases inv with
  | false => simp [effKp, h]
  | true =>
    simp only [effKp, if_true, h]
    rfl

theorem cipherSpec_nil_key (inv : Bool) : ∀ (m : List Nat) (i0 : Nat),
    (∀ b ∈ m, b < 256) → cipherSpec [] inv i0 m = m := by
  intro m
  induction m with
  | nil => intro i0 _; rfl
  | cons b rest ih =>
    intro i0 hb
    have hbb : b < 256 := hb b (List.mem_cons_self _ _)
    have hrest : ∀ x ∈ rest, x < 256 := fun x hx => hb x (List.mem_cons_of_mem _ hx)
    simp only [cipherSpec, effKp_nil_key, outByte_one b hbb, ih (i0 + 1) hrest]

/-! # Claims -/

/-- C1 (counterexample): the round trip fails as stated.  The random stream
`badRand` makes `GenerateKeyset` return the keyset `[badKey, badKey]`
(for n = 2 the compound key equals the single random key), and applying the
first key with `invert = false` already panics: at the first output byte the
lazily reduced accumulator reaches exactly `2^32`, `kp` wraps to `0`, and
the `invTbl[kp-1]` index underflows.  The chain therefore does not reproduce
the message `[0]`. -/
theorem c1_counterexample :
    GenerateKeyset badRand 10 2 = [badKey, badKey] ∧
    applyChain [(badKey, false), (badKey, true)] [0] = none ∧
    applyChain [(badKey, false), (badKey, true)] [0] ≠ some [0] := by
  refine ⟨by decide, by decide, ?_⟩
  intro h
  have h0 : applyChain [(badKey, false), (badKey, true)] [0] = none := by decide
  rw [h0] at h
  exact absurd h (by simp)

/-- C1 (amended): for every message of bytes, every keyset produced by
`GenerateKeyset`, and every permutation of the first n-1 keys, applying
`Cipher` with the permuted keys (invert = false) and then with the compound
key (invert = true) reproduces the message exactly — provided that for every
key of the keyset the lazily reduced key product `kp` is nonzero at every
byte position (the `2^32` accumulator wrap never fires, so no call
panics). -/
theorem c1_round_trip (rand : Nat → Nat) (kLen n : Nat) (hn : 2 ≤ n)
    (m : List Nat) (hm : ∀ b ∈ m, b < 256)
    (perm : List (List Nat))
    (hperm : perm.Perm ((GenerateKeyset rand kLen n).take (n - 1)))
    (hsafe : ∀ k ∈ GenerateKeyset rand kLen n, ∀ i, i < m.length → kpAt k i ≠ 0) :
    applyChain (perm.map (fun k => (k, false)) ++
      [((GenerateKeyset rand kLen n).getD (n - 1) [], true)]) m = some m := by
  rw [keyset_take] at hperm
  rw [keyset_getD_last]
  have hKmem : ∀ k ∈ randKeys rand kLen (n - 1), k ∈ GenerateKeyset rand kLen n := by
    intro k hk
    rw [GenerateKeyset]
    exact List.mem_append.mpr (Or.inl hk)
  have hcmem : compoundKeyOf kLen (randKeys rand kLen (n - 1)) ∈
      GenerateKeyset rand kLen n := by
    rw [GenerateKeyset]
    exact List.mem_append.mpr (Or.inr (List.mem_singleton.mpr rfl))
  have hchain : ∀ kb ∈ perm.map (fun k => (k, false)) ++
      [(compoundKeyOf kLen (randKeys rand kLen (n - 1)), true)],
      ∀ i, i < m.length → kpAt kb.1 i ≠ 0 := by
    intro kb hkb i hi
    rcases List.mem_append.mp hkb with h | h
    · rcases List.mem_map.mp h with ⟨k, hkperm, hkeq⟩
      rw [← hkeq]
      exact hsafe k (hKmem k (hperm.mem_iff.mp hkperm)) i hi
    · rw [List.mem_singleton] at h
      rw [h]
      exact hsafe _ hcmem i hi
  rcases applyChain_char _ m hchain hm with ⟨c', hc', hlen, hb', hrel⟩
  rw [hc']
  suffices hcm : c' = m by rw [hcm]
  apply list_ext_getD c' m hlen
  intro j hj
  have hjm : j < m.length := by rw [← hlen]; exact hj
  have hmul := multProd_roundtrip kLen j (randKeys rand kLen (n - 1)) perm
    (compoundKeyOf kLen (randKeys rand kLen (n - 1)))
    (randKeys_mem_length rand kLen (n - 1)) (compound_length kLen _) hperm
    (fun j hj => compound_sum kLen _ j hj)
  have h1 := hrel j hjm
  have h2 : ((m.getD j 0 + 1) * multProd (perm.map (fun k => (k, false)) ++
      [(compoundKeyOf kLen (randKeys rand kLen (n - 1)), true)]) j) % 257 =
      (m.getD j 0 + 1) % 257 := by
    have h3 := hmul.mul_left (m.getD j 0 + 1)
    rw [mul_one] at h3
    exact h3
  rw [h2] at h1
  have hmj : m.getD j 0 < 256 := hm _ (getD_mem_of_lt m j hjm)
  have hcj : c'.getD j 0 < 256 := hb' _ (getD_mem_of_lt c' j hj)
  rw [Nat.mod_eq_of_lt (by omega : c'.getD j 0 + 1 < 257),
    Nat.mod_eq_of_lt (by omega : m.getD j 0 + 1 < 257)] at h1
  omega

/-- C1 (witness): a concrete instance of the amended round trip, with the
two random keys applied in swapped order. -/
theorem c1_round_trip_witness :
    applyChain ([(GenerateKeyset (fun _ => 0) 10 3).getD 1 [],
        (GenerateKeyset (fun _ => 0) 10 3).getD 0 []].map (fun k => (k, false)) ++
      [((GenerateKeyset (fun _ => 0) 10 3).getD (3 - 1) [], true)]) [0, 7] =
      some [0, 7] :=
  c1_round_trip (fun _ => 0) 10 3 (by norm_num) [0, 7] (by decide)
    [(GenerateKeyset (fun _ => 0) 10 3).getD 1 [],
     (GenerateKeyset (fun _ => 0) 10 3).getD 0 []]
    (by decide) (by decide)

/-- C2 (counterexample): the per-position sum of the field values of ALL
keys of a generated keyset is not 0 mod 256.  With the all-zero random
stream and n = 2 the keyset is two all-zero keys, and the sum of field
values at position 0 is 2. -/
theorem c2_counterexample :
    sumFieldAt (GenerateKeyset (fun _ => 0) 10 2) 0 % 256 ≠ 0 := by
  decide

/-- C2 (amended): at every byte position the compound key's field value
equals the sum of the first n-1 keys' field values mod 256 (equivalently,
that sum minus the compound key's field value is 0 mod 256); the sum over
all n keys is twice the sum of the random keys, which is generally
nonzero. -/
theorem c2_keyset_invariant (rand : Nat → Nat) (kLen n : Nat) (hn : 2 ≤ n)
    (j : Nat) (hj : j < kLen) :
    (((GenerateKeyset rand kLen n).getD (n - 1) []).getD j 0 + 1) % 256 =
      sumFieldAt ((GenerateKeyset rand kLen n).take (n - 1)) j % 256 := by
  rw [keyset_getD_last, keyset_take]
  exact compound_sum kLen _ j hj

/-- C2 (witness): the amended invariant at a concrete keyset and
position. -/
theorem c2_keyset_invariant_witness :
    (((GenerateKeyset (fun i => i) 10 3).getD (3 - 1) []).getD 4 0 + 1) % 256 =
      sumFieldAt ((GenerateKeyset (fun i => i) 10 3).take (3 - 1)) 4 % 256 :=
  c2_keyset_invariant (fun i => i) 10 3 (by norm_num) 4 (by norm_num)

set_option maxRecDepth 8000 in
/-- C3: the historical variant's rotation never advances the odometer.
`keyCycle` is never incremented, so for the 2-byte key `[0,0]` (working
values start at `[1,1]`, cycle counters at `[0,0]`) the rotation state
returns to its initial value after only 64 ticks (`3^64 = 1 mod 256`), the
second key byte's working value is still `1` (never multiplied by 3) after
256 ticks, and the cycle counters are still `[0,0]` — the claimed
mixed-radix carry never happens and the state repeats far before
`256^2` ticks. -/
theorem c3_rotation_stuck :
    rotBIter [0, 0] 64 ([1, 1], [0, 0]) = ([1, 1], [0, 0]) ∧
    (rotBIter [0, 0] 256 ([1, 1], [0, 0])).1.getD 1 0 = 1 ∧
    (rotBIter [0, 0] 256 ([1, 1], [0, 0])).2 = [0, 0] := by
  decide

/-- C4: `GenerateKeyset` returns exactly n keys; the first n-1 are the
bytes drawn from the random source, every key has `KeyLength` bytes, and
the last key stores, at every position, the sum of the first n-1 keys'
field values reduced mod 256 and shifted down by one (with wrap-around). -/
theorem c4_generate_keyset (rand : Nat → Nat) (kLen n : Nat) (hn : 2 ≤ n) :
    (GenerateKeyset rand kLen n).length = n ∧
    (∀ i, i < n - 1 → (GenerateKeyset rand kLen n).getD i [] = keyBytes rand kLen i) ∧
    (∀ k ∈ GenerateKeyset rand kLen n, k.length = kLen) ∧
    (∀ j, j < kLen → ((GenerateKeyset rand kLen n).getD (n - 1) []).getD j 0 =
      (sumFieldAt ((GenerateKeyset rand kLen n).take (n - 1)) j % 256 + 255) % 256) := by
  refine ⟨keyset_length rand kLen n (by omega),
    fun i hi => keyset_getD_rand rand kLen n i hi,
    keyset_mem_length rand kLen n, ?_⟩
  intro j hj
  rw [keyset_getD_last, keyset_take, compound_getD kLen _ j hj]
  have hacc := compoundAcc_modeq j (randKeys rand kLen (n - 1)) 0
  rw [Nat.zero_add] at hacc
  have hacc2 : compoundAcc (randKeys rand kLen (n - 1)) j % 256 =
      sumFieldAt (randKeys rand kLen (n - 1)) j % 256 := hacc
  rw [hacc2]

/-- C4 (witness): the shape of a concrete generated keyset. -/
theorem c4_generate_keyset_witness :
    (GenerateKeyset (fun i => i) 10 3).length = 3 ∧
    ((GenerateKeyset (fun i => i) 10 3).getD (3 - 1) []).getD 0 0 =
      (sumFieldAt ((GenerateKeyset (fun i => i) 10 3).take (3 - 1)) 0 % 256 + 255) % 256 :=
  ⟨(c4_generate_keyset (fun i => i) 10 3 (by norm_num)).1,
   (c4_generate_keyset (fun i => i) 10 3 (by norm_num)).2.2.2 0 (by norm_num)⟩

/-- C5: the lazy reduction is NOT equivalent to reducing after every
multiplication.  For `badKey` at the first output byte the accumulator
reaches exactly `2^32` (kp = 256 after the first group followed by three
table values of 256) and wraps to 0, while eager reduction yields 63. -/
theorem c5_lazy_reduction_overflow :
    kpAt badKey 0 = 0 ∧ kpExactAt badKey 0 = 63 := by
  constructor
  · decide
  · decide

/-- C6: both branches of the invert decision perform exactly one
InverseTable lookup per output byte — the instrumented cipher counts the
same number of lookups for invert = true and invert = false — and the
discarded lookup of the non-inverting branch never affects the output,
which equals plain `Cipher` for either flag. -/
theorem c6_constant_lookup_count (input key : List Nat) :
    (cipherInstr input key true).2 = (cipherInstr input key false).2 ∧
    (∀ inv : Bool, (cipherInstr input key inv).1 = Cipher input key inv) :=
  ⟨cipherInstr_count key input _ 0, fun inv => cipherInstr_fst key inv input _ 0⟩

set_option maxRecDepth 4000 in
/-- C7: for every field element a in [1,256] the inverse recorded by the
pInv build satisfies `(inverse(a) * a) mod 257 = 1` with
`inverse(a) = invTbl[a-1] + 1`, and the mirror entry written by the same
solve holds the partner value: `invTbl[x1-1] = a-1` for `x1 = pInvCalc a`. -/
theorem c7_inverse_identity : ∀ a, a < 257 → 1 ≤ a →
    ((invAt (a - 1) + 1) * a) % 257 = 1 ∧ invAt (pInvCalc a - 1) = a - 1 := by
  decide

/-- C7 (witness): the inverse identity at a = 111 (the element the repo's
own test exercises). -/
theorem c7_inverse_identity_witness :
    ((invAt (111 - 1) + 1) * 111) % 257 = 1 ∧ invAt (pInvCalc 111 - 1) = 111 - 1 :=
  c7_inverse_identity 111 (by norm_num) (by norm_num)

/-- C8: generation with a fallible random source aborts (returns no keyset)
exactly when some of the first n-1 draws fails; no partial keyset is ever
returned, and on success the keyset has exactly n keys. -/
theorem c8_random_failure (src : Nat → Option (List Nat)) (kLen n : Nat) (hn : 2 ≤ n) :
    (GenerateKeysetE src kLen n = none ↔ ∃ i, i < n - 1 ∧ src i = none) ∧
    (∀ ks, GenerateKeysetE src kLen n = some ks → ks.length = n) := by
  constructor
  · rw [GenerateKeysetE, Option.map_eq_none']
    have h := drawKeys_none src (n - 1) 0
    simp only [Nat.zero_add] at h
    exact h
  · intro ks hks
    rw [GenerateKeysetE] at hks
    cases hd : drawKeys src 0 (n - 1) with
    | none => rw [hd] at hks; exact absurd hks (by simp)
    | some ks' =>
      rw [hd] at hks
      simp only [Option.map_some', Option.some_inj] at hks
      rw [← hks, List.length_append, drawKeys_length src (n - 1) 0 ks' hd]
      simp
      omega

/-- C8 (witness): a concrete failing source (second draw fails) yields no
keyset. -/
theorem c8_random_failure_witness :
    GenerateKeysetE (fun i => if i = 1 then none else some (List.replicate 10 0)) 10 3 =
      none :=
  (c8_random_failure (fun i => if i = 1 then none else some (List.replicate 10 0))
    10 3 (by norm_num)).1.mpr ⟨1, by norm_num, by norm_num⟩

/-- C9: with an empty key, `Cipher` returns the message unchanged for
either invert flag: the key product is the empty product 1, the inverse of
1 is 1, and each output byte equals the input byte. -/
theorem c9_empty_key (m : List Nat) (inv : Bool) (hm : ∀ b ∈ m, b < 256) :
    Cipher m [] inv = some m := by
  have hsafe : ∀ t, t < m.length → kpAt ([] : List Nat) t ≠ 0 := by
    intro t _
    rw [kpAt_nil_key]
    norm_num
  rw [Cipher_char m [] inv hsafe, cipherSpec_nil_key inv m 0 hm]

/-- C9 (witness): the empty key acts as the identity on a concrete
message with the invert flag set. -/
theorem c9_empty_key_witness : Cipher [5, 250] [] true = some [5, 250] :=
  c9_empty_key [5, 250] true (by decide)

/-- C10 (counterexample): the reduced key product CAN be 0 — for `badKey`
at byte 0 the accumulator wraps at exactly `2^32` — and then the
InverseTable index `kp - 1` underflows and Cipher panics (returns none). -/
theorem c10_counterexample :
    kpAt badKey 0 = 0 ∧ Cipher [0] badKey false = none := by
  constructor
  · decide
  · decide

/-- C10 (amended): in every iteration the reduced key product is either in
[1,256] or exactly 0 (the `2^32` wrap case, in which Cipher panics on the
InverseTable lookup); every PowerModTable index read by the inner loop
stays within the 32896-byte table. -/
theorem c10_kp_range (key : List Nat) (i : Nat) :
    (kpAt key i = 0 ∨ (1 ≤ kpAt key i ∧ kpAt key i ≤ 256)) ∧
    (∀ j, (pmIndices key i).getD j 0 < 32896) := by
  constructor
  · rcases kpRaw_cases (kpPairs key i) (fun rk hrk => (kpPairs_mem key i rk hrk).2)
      with h | h
    · exact Or.inl h
    · rcases kpExactAt_bounds key i with ⟨h1, h2, _⟩
      exact Or.inr ⟨by rw [kpAt, h]; exact h1, by rw [kpAt, h]; exact h2⟩
  · intro j
    rcases Nat.lt_or_ge j (pmIndices key i).length with hj | hj
    · have hmem := getD_mem_of_lt (pmIndices key i) j hj
      rcases List.mem_map.mp hmem with ⟨rk, hrk, heq⟩
      rcases kpPairs_mem key i rk hrk with ⟨⟨_, hrt⟩, he⟩
      have hdiv : (rk.1 - 1) / 2 ≤ 127 := by
        have h1 : rk.1 - 1 ≤ 255 := by omega
        have h2 : (rk.1 - 1) / 2 ≤ 255 / 2 := Nat.div_le_div_right h1
        norm_num at h2
        exact h2
      rw [← heq]
      have : (rk.1 - 1) / 2 * 257 ≤ 127 * 257 := Nat.mul_le_mul_right _ hdiv
      omega
    · rw [List.getD_eq_default _ _ hj]
      norm_num
